import Mathlib

/-!
Verification development for the DateDropQuery repository: a shallow
embedding of its three Python command-line programs
(`fetchCollegeDomains.py`, `src/cleanUniversities.py`,
`src/ping_waitlist.py`) together with proofs about the embedded
definitions.

Strings are modelled as `List Char` (`PStr`).  Python string primitives
are modelled on the ASCII fragment they are used on in this code base:
`str.strip` removes leading/trailing whitespace characters, `str.lower`
maps the ASCII uppercase letters to lowercase and leaves everything else
unchanged, `str.isdigit` recognises the ASCII digits.
-/

/-- Model of Python strings: a list of characters. -/
abbrev PStr := List Char

/-- Model of Python `str.strip()`: remove leading and trailing whitespace. -/
def pstrip (s : PStr) : PStr :=
  ((s.dropWhile Char.isWhitespace).reverse.dropWhile Char.isWhitespace).reverse

/-- Model of Python `str.lower()` on ASCII text: lowercase every character. -/
def plower (s : PStr) : PStr :=
  s.map Char.toLower

/-! ## cleanUniversities.py -/

/-- Source `norm` (cleanUniversities.py line 8): `(s or "").strip()`.
An absent value is modelled as the empty list, so only the strip remains. -/
def cNorm (s : PStr) : PStr := pstrip s

/-- Source `norm_lower` (cleanUniversities.py line 11): `norm(s).lower()`. -/
def norm_lower (s : PStr) : PStr := plower (cNorm s)

/-- Bounded model of the source loop `while d.endswith("."): d = d[:-1]`
(cleanUniversities.py lines 18-19).  The fuel bounds the iteration count;
each iteration removes one character, so fuel equal to the length of the
list makes the bounded loop agree with the unbounded one. -/
def dropTrailingDotsFuel : Nat → PStr → PStr
  | 0, d => d
  | n + 1, d => if d.getLast? = some '.' then dropTrailingDotsFuel n d.dropLast else d

/-- Source `norm_domain` (cleanUniversities.py lines 14-20): strip and
lowercase, drop one leading `@` if present, drop trailing `.` repeatedly. -/
def norm_domain (s : PStr) : PStr :=
  let d := plower (pstrip s)
  let d := if d.head? = some '@' then d.tail else d
  dropTrailingDotsFuel d.length d

/-- Source `is_valid_domain` (cleanUniversities.py lines 22-31). -/
def is_valid_domain (d : PStr) : Bool :=
  if d = [] then false
  else if ' ' ∈ d then false
  else if ¬ ('.' ∈ d) then false
  else if d.head? = some '.' ∨ d.getLast? = some '.' then false
  else true

/-- One input row of the Cleaner, as produced by `csv.DictReader`:
the three columns the program reads.  A missing column is the empty string. -/
structure CRow where
  name : PStr
  country : PStr
  domain : PStr

/-- One output row written by the Cleaner (`writer.writerow`, lines 87-92). -/
structure OutRow where
  name : PStr
  country : PStr
  domain : PStr
  email_example : PStr
deriving DecidableEq

/-- The Cleaner's loop state: the `seen` set (modelled as a duplicate-free
list), the three counters, and the rows written so far. -/
structure CleanState where
  seen : List PStr
  kept : Nat
  dropped : Nat
  filtered : Nat
  out : List OutRow
deriving DecidableEq

/-- Model of Python `set.add`: insert if not already present. -/
def insertSet (x : PStr) (s : List PStr) : List PStr :=
  if x ∈ s then s else x :: s

/-- One iteration of the Cleaner's row loop (cleanUniversities.py
lines 65-93), for a target country already passed through `norm_lower`. -/
def cleanStep (dedupe : Bool) (target : PStr) (st : CleanState) (r : CRow) : CleanState :=
  let name := cNorm r.name
  let country := cNorm r.country
  let domain := norm_domain r.domain
  if norm_lower country ≠ target then
    { st with filtered := st.filtered + 1 }
  else if name = [] ∨ is_valid_domain domain = false then
    { st with dropped := st.dropped + 1 }
  else if dedupe ∧ domain ∈ st.seen then
    { st with dropped := st.dropped + 1 }
  else
    { st with
      seen := if dedupe then insertSet domain st.seen else st.seen
      out := st.out ++ [⟨name, country, domain, "abc@".data ++ domain⟩]
      kept := st.kept + 1 }

/-- The initial Cleaner state (cleanUniversities.py lines 49-52). -/
def cleanInit : CleanState := ⟨[], 0, 0, 0, []⟩

/-- The Cleaner's main loop over all input rows, with the raw `--country`
argument; the target is `norm_lower` of it (line 41). -/
def cleanMain (dedupe : Bool) (countryArg : PStr) (rows : List CRow) : CleanState :=
  rows.foldl (cleanStep dedupe (norm_lower countryArg)) cleanInit

example : norm_domain "@Example.EDU.".data = "example.edu".data := by decide

example : is_valid_domain "a.b.edu".data = true := by decide

example : is_valid_domain ".edu".data = false := by decide

/-- Restatement of `norm_domain` following the specification's wording:
trim and lowercase, strip one leading `@` if present, and remove the
maximal run of trailing `.` characters (expressed here directly as a
`dropWhile` on the reversed string, rather than as the source's loop). -/
def normDomainSpec (s : PStr) : PStr :=
  let t := plower (pstrip s)
  let t2 := if t.head? = some '@' then t.tail else t
  (t2.reverse.dropWhile (fun c => c == '.')).reverse

/-- The source's bounded trailing-dot loop, run with fuel equal to the
length of the list, removes exactly the maximal trailing run of dots. -/
theorem dropTrailingDotsFuel_eq (d : PStr) :
    dropTrailingDotsFuel d.length d = (d.reverse.dropWhile (fun c => c == '.')).reverse := by
  induction d using List.reverseRecOn with
  | nil => rfl
  | append_singleton xs x ih =>
    by_cases hx : x = '.'
    · subst hx
      have hlen : (xs ++ ['.']).length = xs.length + 1 := by simp
      rw [hlen]
      show (if (xs ++ ['.']).getLast? = some '.' then
          dropTrailingDotsFuel xs.length (xs ++ ['.']).dropLast else xs ++ ['.'])
        = ((xs ++ ['.']).reverse.dropWhile (fun c => c == '.')).reverse
      rw [List.getLast?_concat, if_pos rfl, List.dropLast_concat, ih]
      simp [List.dropWhile]
    · have hlen : (xs ++ [x]).length = xs.length + 1 := by simp
      rw [hlen]
      show (if (xs ++ [x]).getLast? = some '.' then
          dropTrailingDotsFuel xs.length (xs ++ [x]).dropLast else xs ++ [x])
        = ((xs ++ [x]).reverse.dropWhile (fun c => c == '.')).reverse
      rw [List.getLast?_concat, if_neg (by simpa using hx)]
      simp [List.dropWhile, hx]

/-- Claim C7: for every input string, the Cleaner's `norm_domain` trims
surrounding whitespace, lowercases, strips at most one leading `@`, and
strips trailing `.` characters repeatedly (stated as equality with the
specification-shaped `normDomainSpec`); in particular
`norm_domain "@Example.EDU."` is `"example.edu"`, and only one leading
`@` is removed. -/
theorem cleaner_norm_domain_correct :
    (∀ s : PStr, norm_domain s = normDomainSpec s)
    ∧ norm_domain "@Example.EDU.".data = "example.edu".data
    ∧ norm_domain "@@a.b".data = "@a.b".data := by
  refine ⟨fun s => ?_, by decide, by decide⟩
  unfold norm_domain normDomainSpec
  exact dropTrailingDotsFuel_eq _

/-- Unfolding `Char.ofNat` at a valid code point gives back that code point. -/
theorem char_toNat_ofNat_valid (n : Nat) (h : n.isValidChar) :
    (Char.ofNat n).toNat = n := by
  rw [Char.ofNat, dif_pos h]
  rfl

/-- Lowercasing a character never yields an ASCII uppercase letter. -/
theorem isUpper_toLower_eq_false (c : Char) : (Char.toLower c).isUpper = false := by
  by_cases h : c.toNat ≥ 65 ∧ c.toNat ≤ 90
  · have h1 : Char.toLower c = Char.ofNat (c.toNat + 32) := by
      simp only [Char.toLower]
      rw [if_pos h]
    have hv : (c.toNat + 32).isValidChar := Or.inl (by omega)
    have ht : (Char.ofNat (c.toNat + 32)).toNat = c.toNat + 32 :=
      char_toNat_ofNat_valid _ hv
    rw [h1]
    unfold Char.isUpper
    simp only [Bool.and_eq_false_iff, decide_eq_false_iff_not]
    right
    intro hle
    have h2 : (Char.ofNat (c.toNat + 32)).val.toNat ≤ (90 : UInt32).toNat :=
      BitVec.le_def.mp (UInt32.le_def.mp hle)
    have h3 : (90 : UInt32).toNat = 90 := by decide
    have hdef : (Char.ofNat (c.toNat + 32)).val.toNat = (Char.ofNat (c.toNat + 32)).toNat := rfl
    omega
  · have h1 : Char.toLower c = c := by
      simp only [Char.toLower]
      rw [if_neg h]
    rw [h1]
    unfold Char.isUpper
    simp only [Bool.and_eq_false_iff, decide_eq_false_iff_not]
    rcases Nat.lt_or_ge c.val.toNat 65 with hlt | hge
    · left
      intro hle65
      have h2 : (65 : UInt32).toNat ≤ c.val.toNat :=
        BitVec.le_def.mp (UInt32.le_def.mp hle65)
      have h3 : (65 : UInt32).toNat = 65 := by decide
      omega
    · right
      intro hle90
      have h2 : c.val.toNat ≤ (90 : UInt32).toNat :=
        BitVec.le_def.mp (UInt32.le_def.mp hle90)
      have h3 : (90 : UInt32).toNat = 90 := by decide
      have hc : c.val.toNat = c.toNat := rfl
      exact h ⟨by omega, by omega⟩

/-- Each Cleaner iteration increments exactly one of the three counters. -/
theorem cleanStep_counters (dedupe : Bool) (target : PStr) (st : CleanState) (r : CRow) :
    (cleanStep dedupe target st r).kept + (cleanStep dedupe target st r).dropped
      + (cleanStep dedupe target st r).filtered
      = st.kept + st.dropped + st.filtered + 1 := by
  simp only [cleanStep]
  repeat' split
  all_goals simp
  all_goals omega

/-- Folding the Cleaner step adds the row count to the counter total. -/
theorem cleanFold_counters (dedupe : Bool) (target : PStr) :
    ∀ (rows : List CRow) (st : CleanState),
      (rows.foldl (cleanStep dedupe target) st).kept
        + (rows.foldl (cleanStep dedupe target) st).dropped
        + (rows.foldl (cleanStep dedupe target) st).filtered
      = st.kept + st.dropped + st.filtered + rows.length := by
  intro rows
  induction rows with
  | nil => intro st; simp
  | cons r rows ih =>
    intro st
    have h := cleanStep_counters dedupe target st r
    have h2 := ih (cleanStep dedupe target st r)
    simp only [List.foldl_cons, List.length_cons]
    omega

/-- Claim C8: for every input CSV of N data rows, the Cleaner's final
counters satisfy kept + dropped + filtered = N. -/
theorem cleaner_counters_sum (dedupe : Bool) (countryArg : PStr) (rows : List CRow) :
    (cleanMain dedupe countryArg rows).kept + (cleanMain dedupe countryArg rows).dropped
      + (cleanMain dedupe countryArg rows).filtered = rows.length := by
  have h := cleanFold_counters dedupe (norm_lower countryArg) rows cleanInit
  simpa [cleanMain, cleanInit] using h

/-- Does a row pass the Cleaner's country filter? -/
def passesCountry (target : PStr) (r : CRow) : Bool :=
  norm_lower (cNorm r.country) == target

/-- Does a row survive the Cleaner's country filter and validity checks
(before deduplication)? -/
def survives (target : PStr) (r : CRow) : Bool :=
  passesCountry target r && !(cNorm r.name == []) && is_valid_domain (norm_domain r.domain)

/-- The output row the Cleaner writes for a surviving input row. -/
def outRowOf (r : CRow) : OutRow :=
  ⟨cNorm r.name, cNorm r.country, norm_domain r.domain, "abc@".data ++ norm_domain r.domain⟩

/-- Keep only the first row carrying each domain, in order: the
specification-shaped description of domain-keyed deduplication. -/
def dedupeByDomain : List PStr → List OutRow → List OutRow
  | _, [] => []
  | seen, r :: rs =>
    if r.domain ∈ seen then dedupeByDomain seen rs
    else r :: dedupeByDomain (insertSet r.domain seen) rs

/-- With `--dedupe` set, folding the Cleaner step appends exactly the
first-occurrence-per-domain subsequence of the surviving rows. -/
theorem cleanFold_out_dedupe (target : PStr) :
    ∀ (rows : List CRow) (st : CleanState),
      (rows.foldl (cleanStep true target) st).out
        = st.out ++ dedupeByDomain st.seen ((rows.filter (survives target)).map outRowOf) := by
  intro rows
  induction rows with
  | nil => intro st; simp [dedupeByDomain]
  | cons r rows ih =>
    intro st
    simp only [List.foldl_cons]
    by_cases hc : norm_lower (cNorm r.country) ≠ target
    · have hstep : cleanStep true target st r = { st with filtered := st.filtered + 1 } := by
        simp only [cleanStep]
        rw [if_pos hc]
      have hs : survives target r = false := by
        simp only [survives, passesCountry, Bool.and_eq_false_iff, beq_eq_false_iff_ne, ne_eq]
        left
        left
        exact hc
      rw [hstep]
      simp only [List.filter_cons, hs, Bool.false_eq_true, if_false]
      exact ih _
    · push_neg at hc
      by_cases hv : cNorm r.name = [] ∨ is_valid_domain (norm_domain r.domain) = false
      · have hstep : cleanStep true target st r = { st with dropped := st.dropped + 1 } := by
          simp only [cleanStep]
          rw [if_neg (by simp [hc]), if_pos hv]
        have hs : survives target r = false := by
          rcases hv with h | h
          · simp [survives, h]
          · simp [survives, h]
        rw [hstep]
        simp only [List.filter_cons, hs, Bool.false_eq_true, if_false]
        exact ih _
      · push_neg at hv
        have hs : survives target r = true := by
          simp only [survives, passesCountry, Bool.and_eq_true, beq_iff_eq,
            Bool.not_eq_eq_eq_not, Bool.not_false]
          refine ⟨⟨hc, ?_⟩, ?_⟩
          · simpa using hv.1
          · have := hv.2
            revert this
            cases is_valid_domain (norm_domain r.domain) <;> simp
        by_cases hmem : norm_domain r.domain ∈ st.seen
        · have hstep : cleanStep true target st r = { st with dropped := st.dropped + 1 } := by
            simp only [cleanStep]
            rw [if_neg (by simp [hc]), if_neg (by push_neg; exact hv), if_pos ⟨trivial, hmem⟩]
          rw [hstep]
          simp only [List.filter_cons, hs, if_true, List.map_cons]
          rw [dedupeByDomain]
          rw [if_pos (show (outRowOf r).domain ∈ st.seen from hmem)]
          exact ih _
        · have hstep : cleanStep true target st r =
              { st with
                seen := insertSet (norm_domain r.domain) st.seen
                out := st.out ++ [outRowOf r]
                kept := st.kept + 1 } := by
            simp only [cleanStep]
            rw [if_neg (by simp [hc]), if_neg (by push_neg; exact hv),
              if_neg (by intro h; exact hmem h.2)]
            simp [outRowOf]
          rw [hstep]
          simp only [List.filter_cons, hs, if_true, List.map_cons]
          rw [dedupeByDomain]
          rw [if_neg (show ¬ (outRowOf r).domain ∈ st.seen from hmem)]
          rw [ih _]
          simp only [insertSet]
          rw [if_neg hmem, if_neg (show ¬ (outRowOf r).domain ∈ st.seen from hmem)]
          have hdom : (outRowOf r).domain = norm_domain r.domain := rfl
          rw [hdom]
          simp [List.append_assoc]

/-- Each Cleaner iteration writes one row exactly when it increments `kept`. -/
theorem cleanStep_kept_out (dedupe : Bool) (target : PStr) (st : CleanState) (r : CRow) :
    (cleanStep dedupe target st r).kept + st.out.length
      = st.kept + (cleanStep dedupe target st r).out.length := by
  simp only [cleanStep]
  repeat' split
  all_goals simp
  all_goals omega

/-- Folding the Cleaner step keeps `kept` equal to the number of rows written. -/
theorem cleanFold_kept_out (dedupe : Bool) (target : PStr) :
    ∀ (rows : List CRow) (st : CleanState),
      (rows.foldl (cleanStep dedupe target) st).kept + st.out.length
        = st.kept + (rows.foldl (cleanStep dedupe target) st).out.length := by
  intro rows
  induction rows with
  | nil => intro st; simp
  | cons r rows ih =>
    intro st
    have h := cleanStep_kept_out dedupe target st r
    have h2 := ih (cleanStep dedupe target st r)
    simp only [List.foldl_cons]
    omega

/-- Each Cleaner iteration increments `kept` or `dropped` exactly when the
row passes the country filter, and neither otherwise. -/
theorem cleanStep_kept_dropped (dedupe : Bool) (target : PStr) (st : CleanState) (r : CRow) :
    (cleanStep dedupe target st r).kept + (cleanStep dedupe target st r).dropped
      = st.kept + st.dropped + (if passesCountry target r then 1 else 0) := by
  by_cases hc : norm_lower (cNorm r.country) ≠ target
  · have hp : passesCountry target r = false := by
      simp only [passesCountry, beq_eq_false_iff_ne, ne_eq]
      exact hc
    simp only [cleanStep]
    rw [if_pos hc]
    simp [hp]
  · push_neg at hc
    have hp : passesCountry target r = true := by
      simp [passesCountry, hc]
    simp only [cleanStep]
    rw [if_neg (by simp [hc])]
    simp only [hp, if_true]
    repeat' split
    all_goals simp
    all_goals omega

/-- Folding the Cleaner step makes `kept + dropped` count the rows that
pass the country filter. -/
theorem cleanFold_kept_dropped (dedupe : Bool) (target : PStr) :
    ∀ (rows : List CRow) (st : CleanState),
      (rows.foldl (cleanStep dedupe target) st).kept
        + (rows.foldl (cleanStep dedupe target) st).dropped
      = st.kept + st.dropped + (rows.filter (passesCountry target)).length := by
  intro rows
  induction rows with
  | nil => intro st; simp
  | cons r rows ih =>
    intro st
    have h := cleanStep_kept_dropped dedupe target st r
    have h2 := ih (cleanStep dedupe target st r)
    simp only [List.foldl_cons, List.filter_cons]
    by_cases hp : passesCountry target r = true
    · simp only [hp, if_true, List.length_cons] at h ⊢
      omega
    · have hp' : passesCountry target r = false := by
        cases hpc : passesCountry target r
        · rfl
        · exact absurd hpc hp
      simp only [hp', Bool.false_eq_true, if_false] at h ⊢
      omega

/-- Claim C1: with `--dedupe` set, deduplication is keyed solely on the
normalized domain: the output is exactly the surviving rows with only the
first occurrence of each domain retained, `kept` counts the written rows,
every other country-passing row is counted in `dropped`, and two rows
sharing a domain but differing in name yield one output row (the first)
plus one dropped row. -/
theorem cleaner_dedupe_keyed_on_domain_only (countryArg : PStr) (rows : List CRow) :
    (cleanMain true countryArg rows).out
      = dedupeByDomain [] ((rows.filter (survives (norm_lower countryArg))).map outRowOf)
    ∧ (cleanMain true countryArg rows).kept = (cleanMain true countryArg rows).out.length
    ∧ (cleanMain true countryArg rows).kept + (cleanMain true countryArg rows).dropped
        = (rows.filter (passesCountry (norm_lower countryArg))).length
    ∧ (cleanMain true "United States".data
        [⟨"Alpha University".data, "United States".data, "x.edu".data⟩,
         ⟨"Beta College".data, "united states".data, "X.EDU".data⟩]).out
      = [⟨"Alpha University".data, "United States".data, "x.edu".data, "abc@x.edu".data⟩]
    ∧ (cleanMain true "United States".data
        [⟨"Alpha University".data, "United States".data, "x.edu".data⟩,
         ⟨"Beta College".data, "united states".data, "X.EDU".data⟩]).dropped = 1 := by
  refine ⟨?_, ?_, ?_, by decide, by decide⟩
  · have h := cleanFold_out_dedupe (norm_lower countryArg) rows cleanInit
    simpa [cleanMain, cleanInit] using h
  · have h := cleanFold_kept_out true (norm_lower countryArg) rows cleanInit
    simpa [cleanMain, cleanInit] using h
  · have h := cleanFold_kept_dropped true (norm_lower countryArg) rows cleanInit
    simpa [cleanMain, cleanInit] using h

/-- The trailing-dot loop only removes characters: membership is preserved
backwards. -/
theorem mem_dropTrailingDotsFuel :
    ∀ (n : Nat) (d : PStr) (c : Char), c ∈ dropTrailingDotsFuel n d → c ∈ d := by
  intro n
  induction n with
  | zero => intro d c h; exact h
  | succ n ih =>
    intro d c h
    simp only [dropTrailingDotsFuel] at h
    split at h
    · exact (List.dropLast_sublist d).subset (ih _ _ h)
    · exact h

/-- Every character of a normalized domain is non-uppercase, because the
lowercasing step precedes the character-removal steps. -/
theorem norm_domain_no_upper (s : PStr) : ∀ c ∈ norm_domain s, c.isUpper = false := by
  intro c hc
  simp only [norm_domain] at hc
  have h1 : c ∈ (if (plower (pstrip s)).head? = some '@'
      then (plower (pstrip s)).tail else plower (pstrip s)) :=
    mem_dropTrailingDotsFuel _ _ _ hc
  have h2 : c ∈ plower (pstrip s) := by
    split at h1
    · exact (List.tail_sublist _).subset h1
    · exact h1
  simp only [plower, List.mem_map] at h2
  obtain ⟨a, -, rfl⟩ := h2
  exact isUpper_toLower_eq_false a

/-- Unpacking of the validity checks on a domain that passed them. -/
theorem is_valid_domain_props (d : PStr) (h : is_valid_domain d = true) :
    d ≠ [] ∧ ¬ ' ' ∈ d ∧ '.' ∈ d ∧ d.head? ≠ some '.' ∧ d.getLast? ≠ some '.' := by
  simp only [is_valid_domain] at h
  split_ifs at h with h1 h2 h3 h4
  push_neg at h3 h4
  exact ⟨h1, h2, h3, h4.1, h4.2⟩

/-- The invariant satisfied by every row the Cleaner writes. -/
def GoodOut (countryArg : PStr) (row : OutRow) : Prop :=
  row.name ≠ []
  ∧ norm_lower row.country = norm_lower countryArg
  ∧ row.email_example = "abc@".data ++ row.domain
  ∧ is_valid_domain row.domain = true
  ∧ ∀ c ∈ row.domain, c.isUpper = false

/-- Folding the Cleaner step preserves the output-row invariant. -/
theorem cleanFold_out_good (dedupe : Bool) (countryArg : PStr) :
    ∀ (rows : List CRow) (st : CleanState),
      (∀ row ∈ st.out, GoodOut countryArg row) →
      ∀ row ∈ (rows.foldl (cleanStep dedupe (norm_lower countryArg)) st).out,
        GoodOut countryArg row := by
  intro rows
  induction rows with
  | nil => intro st h; exact h
  | cons r rows ih =>
    intro st hst
    simp only [List.foldl_cons]
    apply ih
    intro row hrow
    by_cases hc : norm_lower (cNorm r.country) ≠ norm_lower countryArg
    · have hstep : cleanStep dedupe (norm_lower countryArg) st r
          = { st with filtered := st.filtered + 1 } := by
        simp only [cleanStep]
        rw [if_pos hc]
      rw [hstep] at hrow
      exact hst row hrow
    · push_neg at hc
      by_cases hv : cNorm r.name = [] ∨ is_valid_domain (norm_domain r.domain) = false
      · have hstep : cleanStep dedupe (norm_lower countryArg) st r
            = { st with dropped := st.dropped + 1 } := by
          simp only [cleanStep]
          rw [if_neg (by simp [hc]), if_pos hv]
        rw [hstep] at hrow
        exact hst row hrow
      · push_neg at hv
        by_cases hm : dedupe = true ∧ norm_domain r.domain ∈ st.seen
        · have hstep : cleanStep dedupe (norm_lower countryArg) st r
              = { st with dropped := st.dropped + 1 } := by
            simp only [cleanStep]
            rw [if_neg (by simp [hc]), if_neg (by push_neg; exact hv), if_pos hm]
          rw [hstep] at hrow
          exact hst row hrow
        · have hstep : cleanStep dedupe (norm_lower countryArg) st r
              = { st with
                  seen := if dedupe then insertSet (norm_domain r.domain) st.seen else st.seen
                  out := st.out ++
                    [⟨cNorm r.name, cNorm r.country, norm_domain r.domain,
                      "abc@".data ++ norm_domain r.domain⟩]
                  kept := st.kept + 1 } := by
            simp only [cleanStep]
            rw [if_neg (by simp [hc]), if_neg (by push_neg; exact hv), if_neg hm]
          rw [hstep] at hrow
          simp only [List.mem_append, List.mem_singleton] at hrow
          rcases hrow with h | h
          · exact hst row h
          · subst h
            refine ⟨hv.1, hc, rfl, ?_, norm_domain_no_upper r.domain⟩
            cases hiv : is_valid_domain (norm_domain r.domain)
            · exact absurd hiv hv.2
            · rfl

/-- Claim C10: every row the Cleaner writes has a non-blank name, a country
whose trimmed lowercase form equals the trimmed lowercase filter, an
email_example equal to `abc@` followed by the row's domain, and a domain
that is non-empty, entirely lowercase, has no space, contains a `.`, and
neither starts nor ends with `.`; `norm_domain` alone can produce a
leading-whitespace string (from `"@ foo."`), but `is_valid_domain`
rejects it. -/
theorem cleaner_output_rows_invariant :
    (∀ (dedupe : Bool) (countryArg : PStr) (rows : List CRow) (row : OutRow),
      row ∈ (cleanMain dedupe countryArg rows).out →
      row.name ≠ []
      ∧ norm_lower row.country = norm_lower countryArg
      ∧ row.email_example = "abc@".data ++ row.domain
      ∧ row.domain ≠ []
      ∧ (∀ c ∈ row.domain, c.isUpper = false)
      ∧ ¬ ' ' ∈ row.domain
      ∧ '.' ∈ row.domain
      ∧ row.domain.head? ≠ some '.'
      ∧ row.domain.getLast? ≠ some '.')
    ∧ norm_domain "@ foo.".data = " foo".data
    ∧ is_valid_domain " foo".data = false := by
  refine ⟨?_, by decide, by decide⟩
  intro dedupe countryArg rows row hrow
  simp only [cleanMain] at hrow
  have hgood := cleanFold_out_good dedupe countryArg rows cleanInit
    (fun r h => absurd h (List.not_mem_nil r)) row hrow
  obtain ⟨h1, h2, h3, h4, h5⟩ := hgood
  have hv := is_valid_domain_props row.domain h4
  exact ⟨h1, h2, h3, hv.1, h5, hv.2.1, hv.2.2.1, hv.2.2.2.1, hv.2.2.2.2⟩

/-- Witness for claim C10: a concrete one-row run whose single output row
satisfies the invariant. -/
theorem cleaner_output_rows_invariant_witness :
    "MIT".data ≠ []
    ∧ norm_lower "United States".data = norm_lower "united STATES".data
    ∧ '.' ∈ "example.edu".data := by
  have h := cleaner_output_rows_invariant.1 false "united STATES".data
    [⟨"MIT".data, "United States".data, "@Example.EDU.".data⟩]
    ⟨"MIT".data, "United States".data, "example.edu".data, "abc@example.edu".data⟩
    (by decide)
  exact ⟨h.1, h.2.1, h.2.2.2.2.2.2.1⟩

/-! ## fetchCollegeDomains.py -/

/-- One university record of the downloaded directory, as consumed by the
Fetcher's main loop (missing fields already defaulted: a missing scalar is
the empty string, missing lists are empty). -/
structure School where
  name : PStr
  country : PStr
  alpha_two_code : PStr
  state_province : PStr
  domains : List PStr
  web_pages : List PStr

/-- One per-domain output row of the Fetcher (fetchCollegeDomains.py
lines 76-84). -/
structure FRow where
  name : PStr
  country : PStr
  alpha_two_code : PStr
  state_province : PStr
  domain : PStr
  email_example : PStr
  web_page_example : PStr
deriving DecidableEq

/-- The Fetcher's inner per-domain loop (fetchCollegeDomains.py lines
72-85): one row per domain whose trimmed form is non-blank. -/
def perDomainRowsAux (nm country a2 sp wpe : PStr) : List PStr → List FRow
  | [] => []
  | d :: ds =>
    let d1 := pstrip d
    if d1 = [] then perDomainRowsAux nm country a2 sp wpe ds
    else ⟨nm, country, a2, sp, d1, "abc@".data ++ d1, wpe⟩
      :: perDomainRowsAux nm country a2 sp wpe ds

/-- The per-domain rows the Fetcher emits for one school in default mode
(fields normalized per lines 49-52, `web_page_example` per line 71). -/
def rowsForSchool (s : School) : List FRow :=
  perDomainRowsAux (pstrip s.name) (pstrip s.country) (pstrip s.alpha_two_code)
    (pstrip s.state_province) (s.web_pages.head?.getD []) s.domains

/-- The Fetcher's main loop in default (per-domain) mode: the optional
country filter is lowercased then stripped (line 37) and ignored when the
result is blank (Python truthiness). -/
def fetchPerDomain (countryArg : Option PStr) (schools : List School) : List FRow :=
  let cf : Option PStr :=
    match countryArg with
    | none => none
    | some c => let v := pstrip (plower c); if v = [] then none else some v
  schools.foldl (fun acc s =>
    match cf with
    | some v => if plower (pstrip s.country) ≠ v then acc else acc ++ rowsForSchool s
    | none => acc ++ rowsForSchool s) []

/-- The per-domain inner loop emits exactly one row per non-blank trimmed
domain, in order. -/
theorem perDomainRowsAux_eq (nm country a2 sp wpe : PStr) :
    ∀ ds : List PStr,
      perDomainRowsAux nm country a2 sp wpe ds
        = ((ds.map pstrip).filter (fun d => ¬ d = [])).map
            (fun d => ⟨nm, country, a2, sp, d, "abc@".data ++ d, wpe⟩) := by
  intro ds
  induction ds with
  | nil => rfl
  | cons d ds ih =>
    simp only [perDomainRowsAux, List.map_cons, List.filter_cons]
    by_cases hd : pstrip d = []
    · simp [hd, ih]
    · simp [hd, ih]

/-- Folding list-append over a list is concatenation of the per-element
lists. -/
theorem foldl_append_bind {α β : Type} (f : α → List β) :
    ∀ (xs : List α) (acc : List β),
      xs.foldl (fun a x => a ++ f x) acc = acc ++ xs.flatMap f := by
  intro xs
  induction xs with
  | nil => intro acc; simp
  | cons x xs ih =>
    intro acc
    simp only [List.foldl_cons, List.flatMap_cons]
    rw [ih]
    simp [List.append_assoc]

/-- Claim C9: in default (per-domain) mode the Fetcher emits, per school,
one row per domain whose trimmed form is non-blank, with the domain
trimmed, `email_example` synthesized as `abc@` plus the trimmed domain and
`web_page_example` the school's first web page or empty; the whole
unfiltered run concatenates these per-school rows; and the school with
domains `["a.edu", " ", "b.edu "]` and one web page yields exactly two
rows. -/
theorem fetcher_per_domain_expansion :
    (∀ s : School,
      rowsForSchool s
        = ((s.domains.map pstrip).filter (fun d => ¬ d = [])).map
            (fun d => ⟨pstrip s.name, pstrip s.country, pstrip s.alpha_two_code,
              pstrip s.state_province, d, "abc@".data ++ d, s.web_pages.head?.getD []⟩))
    ∧ (∀ schools : List School, fetchPerDomain none schools = schools.flatMap rowsForSchool)
    ∧ rowsForSchool ⟨"X University".data, "Atlantis".data, "XX".data, [],
        ["a.edu".data, " ".data, "b.edu ".data], ["https://x.edu".data]⟩
      = [⟨"X University".data, "Atlantis".data, "XX".data, [], "a.edu".data,
          "abc@a.edu".data, "https://x.edu".data⟩,
         ⟨"X University".data, "Atlantis".data, "XX".data, [], "b.edu".data,
          "abc@b.edu".data, "https://x.edu".data⟩] := by
  refine ⟨fun s => perDomainRowsAux_eq _ _ _ _ _ s.domains, fun schools => ?_, by decide⟩
  have h := foldl_append_bind rowsForSchool schools ([] : List FRow)
  simpa [fetchPerDomain] using h

/-! ## ping_waitlist.py -/

/-- Model of a parsed JSON value as handled by `deep_find_position`
(ping_waitlist.py lines 97-174).  Python distinguishes `bool` before `int`
(line 106 precedes line 109); a float is modelled as a rational, whose
`is_integer` test is `den = 1` and whose `int(...)` conversion is `num`.
A mapping is modelled as its insertion-ordered key/value list. -/
inductive Json where
  | null
  | bool (b : Bool)
  | int (n : Int)
  | float (q : Rat)
  | str (s : PStr)
  | list (xs : List Json)
  | obj (kvs : List (PStr × Json))

/-- Source `CANDIDATE_KEYS` (ping_waitlist.py lines 27-37). -/
def CANDIDATE_KEYS : List PStr :=
  ["position".data, "rank".data, "waitlistPosition".data, "waitlist_position".data,
   "waitlistRank".data, "waitlist_rank".data, "spot".data, "place".data, "number".data]

/-- Model of Python `int(...)` on a non-empty ASCII digit string (the only
strings it is applied to here, so the `ValueError` branch is dead). -/
def digitsToNat (d : PStr) : Nat :=
  d.foldl (fun n c => 10 * n + (c.toNat - 48)) 0

/-- The character scan of the string case (ping_waitlist.py lines 125-135):
accumulate maximal runs of digit characters, in order. -/
def digitRuns : List Char → List Char → List PStr
  | [], cur => if cur = [] then [] else [cur]
  | c :: cs, cur =>
    if c.isDigit then digitRuns cs (cur ++ [c])
    else if cur = [] then digitRuns cs [] else cur :: digitRuns cs []

/-- The token loop of the string case (ping_waitlist.py lines 137-143):
first digit run whose value lies in 1..1,000,000. -/
def pickRun : List PStr → Option Int
  | [] => none
  | d :: ds =>
    let v : Nat := digitsToNat d
    if 1 ≤ v ∧ v ≤ 1000000 then some (v : Int) else pickRun ds

mutual

/-- Source `deep_find_position` (ping_waitlist.py lines 97-174). -/
def deep_find_position : Json → Option Int
  | .null => none
  | .bool _ => none
  | .int n => if 1 ≤ n ∧ n ≤ 1000000 then some n else none
  | .float q =>
    if q.den = 1 then (if 1 ≤ q.num ∧ q.num ≤ 1000000 then some q.num else none) else none
  | .str s => pickRun (digitRuns s [])
  | .list xs => deepFindList xs
  | .obj kvs =>
    match deepFindPass1 kvs with
    | some v => some v
    | none => deepFindPass2 kvs

/-- The list case (ping_waitlist.py lines 146-152): first element whose
recursive search succeeds. -/
def deepFindList : List Json → Option Int
  | [] => none
  | x :: xs =>
    match deep_find_position x with
    | some v => some v
    | none => deepFindList xs

/-- The first mapping pass (ping_waitlist.py lines 156-166): per key, an
exact candidate-key test and then a case-insensitive one, each recursing
into that key's value. -/
def deepFindPass1 : List (PStr × Json) → Option Int
  | [] => none
  | (k, v) :: rest =>
    match (if k ∈ CANDIDATE_KEYS then deep_find_position v else none) with
    | some x => some x
    | none =>
      match (if plower k ∈ CANDIDATE_KEYS.map plower then deep_find_position v else none) with
      | some x => some x
      | none => deepFindPass1 rest

/-- The second mapping pass (ping_waitlist.py lines 169-172): every value
in order, regardless of key. -/
def deepFindPass2 : List (PStr × Json) → Option Int
  | [] => none
  | (_, v) :: rest =>
    match deep_find_position v with
    | some x => some x
    | none => deepFindPass2 rest

end

example : deep_find_position (.obj [("rank".data, .int 5)]) = some 5 := by decide

example : deep_find_position (.str "You are #7 on the list".data) = some 7 := by decide

/-- Is a key accepted by either the exact or the case-insensitive
candidate-key test? -/
def isCandidateKey (k : PStr) : Bool :=
  k ∈ CANDIDATE_KEYS || plower k ∈ CANDIDATE_KEYS.map plower

/-- Specification-shaped first mapping pass: the first candidate key (in
mapping order) whose value recursively yields a result determines the
result. -/
def objPass1Spec : List (PStr × Json) → Option Int
  | [] => none
  | (k, v) :: rest =>
    if isCandidateKey k then
      match deep_find_position v with
      | some x => some x
      | none => objPass1Spec rest
    else objPass1Spec rest

/-- The list search is the first success among elementwise searches. -/
theorem deepFindList_eq_findSome (L : List Json) :
    deepFindList L = L.findSome? deep_find_position := by
  induction L with
  | nil => rfl
  | cons x xs ih =>
    simp only [deepFindList, List.findSome?_cons]
    cases deep_find_position x <;> simp [ih]

/-- The source's double candidate test per key agrees with the combined
single test. -/
theorem deepFindPass1_eq_spec (kvs : List (PStr × Json)) :
    deepFindPass1 kvs = objPass1Spec kvs := by
  induction kvs with
  | nil => rfl
  | cons kv rest ih =>
    obtain ⟨k, v⟩ := kv
    simp only [deepFindPass1, objPass1Spec]
    by_cases h1 : k ∈ CANDIDATE_KEYS
    · have h2 : plower k ∈ CANDIDATE_KEYS.map plower := List.mem_map_of_mem _ h1
      have hck : isCandidateKey k = true := by simp [isCandidateKey, h1]
      cases hv : deep_find_position v <;> simp [h1, h2, hck, hv, ih]
    · by_cases h2 : plower k ∈ CANDIDATE_KEYS.map plower
      · have hck : isCandidateKey k = true := by simp [isCandidateKey, h2]
        cases hv : deep_find_position v <;> simp [h1, h2, hck, hv, ih]
      · have hck : isCandidateKey k = false := by simp [isCandidateKey, h1, h2]
        simp [h1, h2, hck, ih]

/-- The second mapping pass is the first success among the values. -/
theorem deepFindPass2_eq_findSome (kvs : List (PStr × Json)) :
    deepFindPass2 kvs = kvs.findSome? (fun kv => deep_find_position kv.2) := by
  induction kvs with
  | nil => rfl
  | cons kv rest ih =>
    obtain ⟨k, v⟩ := kv
    simp only [deepFindPass2, List.findSome?_cons]
    cases deep_find_position v <;> simp [ih]

/-- Claim C4: a mapping is searched in two passes, candidate keys first in
mapping order (matching exactly or case-insensitively), then all values in
order; and on a list of parsed lines the first match wins, so a candidate
key in the first parsed line beats numbers in later lines. -/
theorem prober_mapping_two_pass_search :
    (∀ kvs : List (PStr × Json),
      deep_find_position (.obj kvs)
        = match objPass1Spec kvs with
          | some v => some v
          | none => kvs.findSome? (fun kv => deep_find_position kv.2))
    ∧ (∀ L : List Json, deep_find_position (.list L) = L.findSome? deep_find_position)
    ∧ deep_find_position (.list
        [.obj [("status".data, .str "pending".data), ("Rank".data, .int 5)],
         .obj [("value".data, .int 9)]]) = some 5 := by
  refine ⟨fun kvs => ?_, fun L => deepFindList_eq_findSome L, by decide⟩
  simp only [deep_find_position, deepFindPass1_eq_spec, deepFindPass2_eq_findSome]

/-- Specification-shaped maximal digit runs: each run is a maximal block of
consecutive digit characters, listed in order of appearance. -/
def digitRunsSpec : List Char → List PStr
  | [] => []
  | c :: cs =>
    if c.isDigit then (c :: cs.takeWhile Char.isDigit) :: digitRunsSpec (cs.dropWhile Char.isDigit)
    else digitRunsSpec cs
termination_by s => s.length
decreasing_by
  · simp only [List.length_cons]
    have := (List.dropWhile_sublist (l := cs) Char.isDigit).length_le
    omega
  · simp

/-- The value test applied to one digit-run token. -/
def tokenValue (d : PStr) : Option Int :=
  if 1 ≤ digitsToNat d ∧ digitsToNat d ≤ 1000000 then some ((digitsToNat d : Nat) : Int)
  else none

/-- The token loop is the first success of the value test. -/
theorem pickRun_eq_findSome (ds : List PStr) : pickRun ds = ds.findSome? tokenValue := by
  induction ds with
  | nil => rfl
  | cons d ds ih =>
    simp only [pickRun, List.findSome?_cons, tokenValue]
    split
    · rfl
    · exact ih

/-- Unfolding step for `digitRunsSpec` expressed through `takeWhile` and
`dropWhile` of the whole list. -/
theorem digitRunsSpec_head (cs : List Char) :
    (if cs.takeWhile Char.isDigit = [] then digitRunsSpec (cs.dropWhile Char.isDigit)
     else cs.takeWhile Char.isDigit :: digitRunsSpec (cs.dropWhile Char.isDigit))
    = digitRunsSpec cs := by
  cases cs with
  | nil => simp [digitRunsSpec]
  | cons c cs =>
    by_cases hd : c.isDigit
    · conv_rhs => rw [digitRunsSpec]
      simp [List.takeWhile_cons, List.dropWhile_cons, hd]
    · simp [List.takeWhile_cons, List.dropWhile_cons, hd]

/-- The source's accumulator scan produces exactly the maximal digit runs:
the accumulator holds the digits of the run in progress. -/
theorem digitRuns_eq_spec :
    ∀ (s : List Char) (cur : PStr), (∀ c ∈ cur, c.isDigit = true) →
      digitRuns s cur
        = if cur ++ s.takeWhile Char.isDigit = []
          then digitRunsSpec (s.dropWhile Char.isDigit)
          else (cur ++ s.takeWhile Char.isDigit) :: digitRunsSpec (s.dropWhile Char.isDigit) := by
  intro s
  induction s with
  | nil =>
    intro cur hcur
    simp [digitRuns, digitRunsSpec]
  | cons c cs ih =>
    intro cur hcur
    by_cases hd : c.isDigit
    · have hstep : digitRuns (c :: cs) cur = digitRuns cs (cur ++ [c]) := by
        simp [digitRuns, hd]
      have hcur' : ∀ x ∈ cur ++ [c], x.isDigit = true := by
        intro x hx
        rcases List.mem_append.mp hx with h | h
        · exact hcur x h
        · simp only [List.mem_singleton] at h
          exact h ▸ hd
      rw [hstep, ih (cur ++ [c]) hcur']
      simp [List.takeWhile_cons, List.dropWhile_cons, hd, List.append_assoc]
    · have h0 := ih [] (by intro x hx; cases hx)
      simp only [List.nil_append] at h0
      have hcs : digitRuns cs [] = digitRunsSpec cs := by
        rw [h0]
        exact digitRunsSpec_head cs
      have hspec : digitRunsSpec (c :: cs) = digitRunsSpec cs := by
        rw [digitRunsSpec]
        simp [hd]
      by_cases hc0 : cur = []
      · subst hc0
        have hstep : digitRuns (c :: cs) ([] : PStr) = digitRuns cs [] := by
          simp [digitRuns, hd]
        rw [hstep, hcs]
        simp [List.takeWhile_cons, List.dropWhile_cons, hd, hspec]
      · have hstep : digitRuns (c :: cs) cur = cur :: digitRuns cs [] := by
          simp [digitRuns, hd, hc0]
        rw [hstep, hcs]
        simp [List.takeWhile_cons, List.dropWhile_cons, hd, hc0, hspec]

/-- Claim C5: a string is scanned left to right for maximal digit runs and
the first run whose integer value lies in 1..1,000,000 is returned; the
scan of `"You are #123 of 5000"` produces the tokens `123` then `5000`,
and `"You are #7 on the list"` yields 7. -/
theorem prober_string_scan :
    (∀ s : PStr, deep_find_position (.str s) = (digitRunsSpec s).findSome? tokenValue)
    ∧ digitRuns "You are #123 of 5000".data [] = ["123".data, "5000".data]
    ∧ deep_find_position (.str "You are #7 on the list".data) = some 7 := by
  refine ⟨fun s => ?_, by decide, by decide⟩
  have h := digitRuns_eq_spec s [] (by intro x hx; cases hx)
  simp only [List.nil_append] at h
  have hruns : digitRuns s [] = digitRunsSpec s := by
    rw [h]
    exact digitRunsSpec_head s
  show pickRun (digitRuns s []) = (digitRunsSpec s).findSome? tokenValue
  rw [hruns, pickRun_eq_findSome]

/-- Any value the token loop returns lies in 1..1,000,000. -/
theorem pickRunRange : ∀ (ds : List PStr) (n : Int),
    pickRun ds = some n → 1 ≤ n ∧ n ≤ 1000000 := by
  intro ds
  induction ds with
  | nil => intro n h; simp [pickRun] at h
  | cons d ds ih =>
    intro n h
    simp only [pickRun] at h
    split at h
    · rename_i hv
      cases h
      omega
    · exact ih n h

mutual

/-- Any value `deep_find_position` returns lies in 1..1,000,000. -/
theorem deepFindRange : ∀ (j : Json) (n : Int),
    deep_find_position j = some n → 1 ≤ n ∧ n ≤ 1000000
  | .null, n, h => by simp [deep_find_position] at h
  | .bool b, n, h => by simp [deep_find_position] at h
  | .int m, n, h => by
    simp only [deep_find_position] at h
    split at h
    · rename_i hm
      cases h
      omega
    · cases h
  | .float q, n, h => by
    simp only [deep_find_position] at h
    split at h
    · split at h
      · rename_i hq
        cases h
        omega
      · cases h
    · cases h
  | .str s, n, h => pickRunRange _ n (by simpa [deep_find_position] using h)
  | .list xs, n, h => deepFindListRange xs n (by simpa [deep_find_position] using h)
  | .obj kvs, n, h => by
    simp only [deep_find_position] at h
    cases h1 : deepFindPass1 kvs with
    | some v =>
      rw [h1] at h
      cases h
      exact deepFindPass1Range kvs _ h1
    | none =>
      rw [h1] at h
      exact deepFindPass2Range kvs n h

/-- Any value the list search returns lies in 1..1,000,000. -/
theorem deepFindListRange : ∀ (xs : List Json) (n : Int),
    deepFindList xs = some n → 1 ≤ n ∧ n ≤ 1000000
  | [], n, h => by simp [deepFindList] at h
  | x :: xs, n, h => by
    simp only [deepFindList] at h
    cases hx : deep_find_position x with
    | some v =>
      rw [hx] at h
      cases h
      exact deepFindRange x _ hx
    | none =>
      rw [hx] at h
      exact deepFindListRange xs n h

/-- Any value the first mapping pass returns lies in 1..1,000,000. -/
theorem deepFindPass1Range : ∀ (kvs : List (PStr × Json)) (n : Int),
    deepFindPass1 kvs = some n → 1 ≤ n ∧ n ≤ 1000000
  | [], n, h => by simp [deepFindPass1] at h
  | (k, v) :: rest, n, h => by
    simp only [deepFindPass1] at h
    cases h1 : (if k ∈ CANDIDATE_KEYS then deep_find_position v else none) with
    | some x =>
      rw [h1] at h
      cases h
      split at h1
      · exact deepFindRange v _ h1
      · cases h1
    | none =>
      rw [h1] at h
      cases h2 : (if plower k ∈ CANDIDATE_KEYS.map plower then deep_find_position v else none) with
      | some x =>
        rw [h2] at h
        cases h
        split at h2
        · exact deepFindRange v _ h2
        · cases h2
      | none =>
        rw [h2] at h
        exact deepFindPass1Range rest n h

/-- Any value the second mapping pass returns lies in 1..1,000,000. -/
theorem deepFindPass2Range : ∀ (kvs : List (PStr × Json)) (n : Int),
    deepFindPass2 kvs = some n → 1 ≤ n ∧ n ≤ 1000000
  | [], n, h => by simp [deepFindPass2] at h
  | (k, v) :: rest, n, h => by
    simp only [deepFindPass2] at h
    cases hv : deep_find_position v with
    | some x =>
      rw [hv] at h
      cases h
      exact deepFindRange v _ hv
    | none =>
      rw [hv] at h
      exact deepFindPass2Range rest n h

end

/-- Claim C6: on every JSON value, `deep_find_position` returns nothing or
an integer in 1..1,000,000; booleans and nulls never match; a whole number
(integer, or float with zero fractional part) is accepted exactly when it
lies in that range; and 2000000 is never returned from any position in the
structure. -/
theorem prober_position_always_in_range :
    (∀ (j : Json) (n : Int), deep_find_position j = some n → 1 ≤ n ∧ n ≤ 1000000)
    ∧ deep_find_position .null = none
    ∧ (∀ b : Bool, deep_find_position (.bool b) = none)
    ∧ (∀ n : Int, deep_find_position (.int n)
        = if 1 ≤ n ∧ n ≤ 1000000 then some n else none)
    ∧ (∀ q : Rat, deep_find_position (.float q)
        = if q.den = 1 then (if 1 ≤ q.num ∧ q.num ≤ 1000000 then some q.num else none)
          else none)
    ∧ (∀ j : Json, deep_find_position j ≠ some 2000000) := by
  refine ⟨deepFindRange, rfl, fun b => rfl, fun n => rfl, fun q => rfl, fun j h => ?_⟩
  have := deepFindRange j 2000000 h
  omega

/-- Witness for claim C6: the position 42 found under a candidate key is in
range. -/
theorem prober_position_always_in_range_witness :
    (1 : Int) ≤ 42 ∧ (42 : Int) ≤ 1000000 :=
  prober_position_always_in_range.1 (.obj [("position".data, .int 42)]) 42 (by decide)

/-- One data row of the Prober's append-only ledger CSV (header written at
ping_waitlist.py lines 62-71, rows at lines 189-198).  The wall-clock
`timestamp_utc` column is not modelled; `waitlist_position` is `none` where
the CSV holds the empty string. -/
structure LedgerRow where
  name : PStr
  country : PStr
  domain : PStr
  email_used : PStr
  waitlist_position : Option Int
  http_status : Int
  raw_response : PStr
deriving DecidableEq

/-- Source `load_already_processed` (ping_waitlist.py lines 45-55): `none`
models a missing ledger file; otherwise the set (modelled as a
duplicate-free list) of non-blank stripped lowercased domain values. -/
def load_already_processed : Option (List LedgerRow) → List PStr
  | none => []
  | some rows =>
    rows.foldl (fun done r =>
      let d := pstrip r.domain
      if d ≠ [] then insertSet (plower d) done else done) []

/-- Membership in `insertSet`. -/
theorem mem_insertSet (x y : PStr) (s : List PStr) :
    x ∈ insertSet y s ↔ x = y ∨ x ∈ s := by
  simp only [insertSet]
  split
  · rename_i h
    constructor
    · exact fun hx => Or.inr hx
    · rintro (rfl | hx)
      · exact h
      · exact hx
  · simp [List.mem_cons]

/-- Inserting into a duplicate-free set-list keeps it duplicate-free. -/
theorem nodup_insertSet (y : PStr) (s : List PStr) (h : s.Nodup) :
    (insertSet y s).Nodup := by
  simp only [insertSet]
  split
  · exact h
  · rename_i hy
    exact List.Nodup.cons hy h

/-- Characterization of the ledger-loading fold: exactly the non-blank
stripped lowercased domains, on top of the accumulator. -/
theorem mem_load_foldl :
    ∀ (rows : List LedgerRow) (acc : List PStr) (x : PStr),
      (x ∈ rows.foldl (fun done r =>
          let d := pstrip r.domain
          if d ≠ [] then insertSet (plower d) done else done) acc)
        ↔ x ∈ acc ∨ ∃ r ∈ rows, pstrip r.domain ≠ [] ∧ x = plower (pstrip r.domain) := by
  intro rows
  induction rows with
  | nil => intro acc x; simp
  | cons r rows ih =>
    intro acc x
    simp only [List.foldl_cons]
    by_cases hd : pstrip r.domain ≠ []
    · rw [if_pos hd, ih, mem_insertSet]
      constructor
      · rintro ((rfl | h) | ⟨r1, hr1, hd1, hx1⟩)
        · right; exact ⟨r, List.mem_cons_self r rows, hd, rfl⟩
        · left; exact h
        · right; exact ⟨r1, List.mem_cons_of_mem r hr1, hd1, hx1⟩
      · rintro (h | ⟨r1, hr1, hd1, hx1⟩)
        · left; right; exact h
        · rcases List.mem_cons.mp hr1 with rfl | hr1
          · left; left; exact hx1
          · right; exact ⟨r1, hr1, hd1, hx1⟩
    · rw [if_neg hd, ih]
      push_neg at hd
      constructor
      · rintro (h | ⟨r1, hr1, hd1, hx1⟩)
        · left; exact h
        · right; exact ⟨r1, List.mem_cons_of_mem r hr1, hd1, hx1⟩
      · rintro (h | ⟨r1, hr1, hd1, hx1⟩)
        · left; exact h
        · rcases List.mem_cons.mp hr1 with rfl | hr1
          · exact absurd hd hd1
          · right; exact ⟨r1, hr1, hd1, hx1⟩

/-- The ledger-loading fold keeps the accumulator duplicate-free. -/
theorem nodup_load_foldl :
    ∀ (rows : List LedgerRow) (acc : List PStr), acc.Nodup →
      (rows.foldl (fun done r =>
          let d := pstrip r.domain
          if d ≠ [] then insertSet (plower d) done else done) acc).Nodup := by
  intro rows
  induction rows with
  | nil => intro acc h; exact h
  | cons r rows ih =>
    intro acc h
    simp only [List.foldl_cons]
    by_cases hd : pstrip r.domain ≠ []
    · rw [if_pos hd]
      exact ih _ (nodup_insertSet _ _ h)
    · rw [if_neg hd]
      exact ih _ h

/-- The observable outcome of one `call_waitlist` invocation (ping_waitlist.py
line 258): an HTTP response of any status code with its body text, a
`requests.Timeout`/`requests.ConnectionError` with its message, or any
other exception with its message. -/
inductive AttemptOutcome where
  | response (status : Int) (text : PStr)
  | netError (detail : PStr)
  | otherExc (detail : PStr)

/-- Is this outcome one of the two retried network-layer exceptions? -/
def AttemptOutcome.isNetError : AttemptOutcome → Bool
  | .netError _ => true
  | _ => false

/-- The message of a network-layer failure (dummy otherwise). -/
def AttemptOutcome.netDetail : AttemptOutcome → PStr
  | .netError d => d
  | _ => []

/-- The synthesized body recorded on a network-layer failure
(ping_waitlist.py line 267). -/
def synthNet (detail : PStr) : PStr :=
  "\x7b\"error\":\"network\",\"detail\":\"".data ++ detail ++ "\"\x7d".data

/-- The synthesized body recorded on any other exception
(ping_waitlist.py line 272). -/
def synthExc (detail : PStr) : PStr :=
  "\x7b\"error\":\"exception\",\"detail\":\"".data ++ detail ++ "\"\x7d".data

/-- Abstract model of `json.loads`: a parser returning the parsed value or
the message of the `JSONDecodeError` it raises. -/
abbrev JLoads := PStr → Except PStr Json

/-- The per-line path of `parse_jsonl` (ping_waitlist.py lines 89-95):
parse each non-blank stripped line in order; a parse failure propagates
immediately as an exception. -/
def parseLines (jl : JLoads) : List PStr → Except PStr (List Json)
  | [] => .ok []
  | l :: ls =>
    let l1 := pstrip l
    if l1 = [] then parseLines jl ls
    else
      match jl l1 with
      | .error e => .error e
      | .ok v =>
        match parseLines jl ls with
        | .error e => .error e
        | .ok vs => .ok (v :: vs)

/-- Source `parse_jsonl` (ping_waitlist.py lines 73-95), with the possible
uncaught per-line `JSONDecodeError` made explicit as `.error`: a blank body
parses to `[]`; a body starting with `[` or `{` is first tried as a single
JSON value, a failure falling silently through to the per-line path. -/
def parse_jsonlE (jl : JLoads) (text : PStr) : Except PStr (List Json) :=
  let t := pstrip text
  if t = [] then .ok []
  else if t.head? = some '[' ∨ t.head? = some '\x7b' then
    match jl t with
    | .ok v => .ok [v]
    | .error _ => parseLines jl (t.splitOn '\n')
  else parseLines jl (t.splitOn '\n')

/-- The accumulated observable result of the Prober's per-row retry loop
(ping_waitlist.py lines 250-274): number of `call_waitlist` invocations,
the `last_status`/`last_text`/`position`/`ok` variables after the loop, and
the backoff sleeps performed (in seconds). -/
structure ProbeOut where
  calls : Nat
  last_status : Int
  last_text : PStr
  position : Option Int
  ok : Bool
  sleeps : List Rat
deriving DecidableEq

/-- The retry loop (ping_waitlist.py lines 256-274): `fuel` iterations of
`for attempt in range(retries + 1)` remain, `attempt` is the current index,
and the remaining arguments carry `last_status`, `last_text`, `position`,
the call count and the sleeps so far. -/
def attemptLoopAux (jl : JLoads) (oracle : Nat → AttemptOutcome) :
    Nat → Nat → Int → PStr → Option Int → Nat → List Rat → ProbeOut
  | 0, _, ls, lt, pos, calls, sleeps => ⟨calls, ls, lt, pos, false, sleeps⟩
  | fuel + 1, attempt, _, _, pos, calls, sleeps =>
    match oracle attempt with
    | .response status text =>
      match parse_jsonlE jl text with
      | .ok parsed => ⟨calls + 1, status, text, deep_find_position (.list parsed), true, sleeps⟩
      | .error e => ⟨calls + 1, 0, synthExc e, pos, false, sleeps⟩
    | .netError detail =>
      attemptLoopAux jl oracle fuel (attempt + 1) 0 (synthNet detail) pos (calls + 1)
        (sleeps ++ [(3 : Rat)/5 + (attempt : Rat)])
    | .otherExc detail => ⟨calls + 1, 0, synthExc detail, pos, false, sleeps⟩

/-- The whole retry loop for one row (initial state per lines 250-254). -/
def attemptLoop (jl : JLoads) (oracle : Nat → AttemptOutcome) (retries : Nat) : ProbeOut :=
  attemptLoopAux jl oracle (retries + 1) 0 0 [] none 0 []

/-- The first iteration offset (relative to `a`) at which the loop would
break out — the first outcome that is not a network error — if any lies
within the remaining budget. -/
def firstBreak (oracle : Nat → AttemptOutcome) (a : Nat) : Nat → Option Nat
  | 0 => none
  | fuel + 1 =>
    if (oracle a).isNetError then (firstBreak oracle (a + 1) fuel).map (· + 1)
    else some 0

/-- Specification-shaped description of the retry loop: all attempts before
the break are network errors, each sleeping `0.6 + attempt` seconds; the
breaking attempt is a response (success if its body parses, an
exception-failure otherwise) or another exception (immediate failure); if
every attempt is a network error the loop exhausts the budget as a failure
recording the last network error. -/
def attemptSpecAux (jl : JLoads) (oracle : Nat → AttemptOutcome) (fuel a : Nat)
    (pos : Option Int) (calls : Nat) (sleeps : List Rat) : ProbeOut :=
  match firstBreak oracle a fuel with
  | some k =>
    let sleeps1 := sleeps ++ (List.range k).map (fun i => (3 : Rat)/5 + ((a + i : Nat) : Rat))
    match oracle (a + k) with
    | .response s t =>
      match parse_jsonlE jl t with
      | .ok parsed => ⟨calls + k + 1, s, t, deep_find_position (.list parsed), true, sleeps1⟩
      | .error e => ⟨calls + k + 1, 0, synthExc e, pos, false, sleeps1⟩
    | .otherExc d => ⟨calls + k + 1, 0, synthExc d, pos, false, sleeps1⟩
    | .netError _ => ⟨0, 0, [], none, false, []⟩
  | none =>
    ⟨calls + fuel, 0, synthNet ((oracle (a + fuel - 1)).netDetail), pos, false,
      sleeps ++ (List.range fuel).map (fun i => (3 : Rat)/5 + ((a + i : Nat) : Rat))⟩

/-- The specification-shaped loop at the loop's initial state. -/
def attemptLoopSpec (jl : JLoads) (oracle : Nat → AttemptOutcome) (retries : Nat) : ProbeOut :=
  attemptSpecAux jl oracle (retries + 1) 0 none 0 []

/-- Shifting one executed network-error attempt into the spec-shaped
description. -/
theorem range_succ_shift (a k : Nat) :
    (List.range (k + 1)).map (fun i => (3 : Rat)/5 + ((a + i : Nat) : Rat))
      = ((3 : Rat)/5 + (a : Rat))
        :: (List.range k).map (fun i => (3 : Rat)/5 + ((a + 1 + i : Nat) : Rat)) := by
  rw [List.range_succ_eq_map]
  simp only [List.map_cons, List.map_map]
  congr 1
  apply List.map_congr_left
  intro i hi
  simp only [Function.comp_apply]
  push_cast
  ring

/-- Executing one network-error attempt and continuing is the same as the
spec-shaped loop with one more unit of budget. -/
theorem attemptSpecAux_netError_shift (jl : JLoads) (oracle : Nat → AttemptOutcome)
    (fuel a : Nat) (pos : Option Int) (calls : Nat) (sleeps : List Rat)
    (hne : (oracle a).isNetError = true) :
    attemptSpecAux jl oracle fuel (a + 1) pos (calls + 1)
        (sleeps ++ [(3 : Rat)/5 + (a : Rat)])
      = attemptSpecAux jl oracle (fuel + 1) a pos calls sleeps := by
  simp only [attemptSpecAux]
  have hfb : firstBreak oracle a (fuel + 1) = (firstBreak oracle (a + 1) fuel).map (· + 1) := by
    simp [firstBreak, hne]
  rw [hfb]
  cases hk : firstBreak oracle (a + 1) fuel with
  | none =>
    simp only [Option.map_none']
    have e1 : calls + 1 + fuel = calls + (fuel + 1) := by omega
    have e2 : a + 1 + fuel - 1 = a + (fuel + 1) - 1 := by omega
    have e3 : (sleeps ++ [(3 : Rat)/5 + (a : Rat)])
          ++ (List.range fuel).map (fun i => (3 : Rat)/5 + ((a + 1 + i : Nat) : Rat))
        = sleeps ++ (List.range (fuel + 1)).map (fun i => (3 : Rat)/5 + ((a + i : Nat) : Rat)) := by
      rw [range_succ_shift a fuel]
      simp [List.append_assoc]
    rw [e1, e2, e3]
  | some k =>
    simp only [Option.map_some']
    have e1 : a + 1 + k = a + (k + 1) := by omega
    have e2 : calls + 1 + k + 1 = calls + (k + 1) + 1 := by omega
    have e3 : (sleeps ++ [(3 : Rat)/5 + (a : Rat)])
          ++ (List.range k).map (fun i => (3 : Rat)/5 + ((a + 1 + i : Nat) : Rat))
        = sleeps ++ (List.range (k + 1)).map (fun i => (3 : Rat)/5 + ((a + i : Nat) : Rat)) := by
      rw [range_succ_shift a k]
      simp [List.append_assoc]
    rw [e1, e2, e3]

/-- The source-shaped retry loop agrees with the spec-shaped description,
given the invariant that at zero budget the carried status/text are those
of the preceding network error. -/
theorem attemptLoopAux_eq_spec (jl : JLoads) (oracle : Nat → AttemptOutcome) :
    ∀ (fuel a : Nat) (ls : Int) (lt : PStr) (pos : Option Int) (calls : Nat) (sleeps : List Rat),
      (0 < fuel ∨ (ls = 0 ∧ lt = synthNet ((oracle (a - 1)).netDetail))) →
      attemptLoopAux jl oracle fuel a ls lt pos calls sleeps
        = attemptSpecAux jl oracle fuel a pos calls sleeps := by
  intro fuel
  induction fuel with
  | zero =>
    intro a ls lt pos calls sleeps h
    rcases h with h | ⟨h1, h2⟩
    · omega
    · simp only [attemptLoopAux, attemptSpecAux, firstBreak]
      rw [h1, h2]
      simp
  | succ fuel ih =>
    intro a ls lt pos calls sleeps _
    simp only [attemptLoopAux]
    cases ho : oracle a with
    | response status text =>
      have hfb : firstBreak oracle a (fuel + 1) = some 0 := by
        simp [firstBreak, ho, AttemptOutcome.isNetError]
      simp only [attemptSpecAux, hfb, Nat.add_zero, ho, List.range_zero, List.map_nil,
        List.append_nil]
    | netError d =>
      have hne : (oracle a).isNetError = true := by
        simp [ho, AttemptOutcome.isNetError]
      have ih1 := ih (a + 1) 0 (synthNet d) pos (calls + 1)
        (sleeps ++ [(3 : Rat)/5 + (a : Rat)])
        (Or.inr ⟨rfl, by simp [ho, AttemptOutcome.netDetail]⟩)
      show attemptLoopAux jl oracle fuel (a + 1) 0 (synthNet d) pos (calls + 1)
          (sleeps ++ [(3 : Rat)/5 + (a : Rat)])
        = attemptSpecAux jl oracle (fuel + 1) a pos calls sleeps
      rw [ih1]
      exact attemptSpecAux_netError_shift jl oracle fuel a pos calls sleeps hne
    | otherExc d =>
      have hfb : firstBreak oracle a (fuel + 1) = some 0 := by
        simp [firstBreak, ho, AttemptOutcome.isNetError]
      simp only [attemptSpecAux, hfb, Nat.add_zero, ho, List.range_zero, List.map_nil,
        List.append_nil]

/-- The retry loop equals its specification-shaped description. -/
theorem attemptLoop_eq_spec (jl : JLoads) (oracle : Nat → AttemptOutcome) (retries : Nat) :
    attemptLoop jl oracle retries = attemptLoopSpec jl oracle retries :=
  attemptLoopAux_eq_spec jl oracle (retries + 1) 0 0 [] none 0 []
    (Or.inl (Nat.succ_pos retries))

/-- The break offset lies within the budget. -/
theorem firstBreak_lt (oracle : Nat → AttemptOutcome) :
    ∀ (fuel a k : Nat), firstBreak oracle a fuel = some k → k < fuel := by
  intro fuel
  induction fuel with
  | zero => intro a k h; simp [firstBreak] at h
  | succ fuel ih =>
    intro a k h
    simp only [firstBreak] at h
    split at h
    · cases hk : firstBreak oracle (a + 1) fuel with
      | none => rw [hk] at h; simp at h
      | some k0 =>
        rw [hk] at h
        simp only [Option.map_some', Option.some.injEq] at h
        have := ih (a + 1) k0 hk
        omega
    · cases h
      omega

/-- The outcome at the break offset is not a network error. -/
theorem firstBreak_not_net (oracle : Nat → AttemptOutcome) :
    ∀ (fuel a k : Nat), firstBreak oracle a fuel = some k →
      (oracle (a + k)).isNetError = false := by
  intro fuel
  induction fuel with
  | zero => intro a k h; simp [firstBreak] at h
  | succ fuel ih =>
    intro a k h
    simp only [firstBreak] at h
    split at h
    · cases hk : firstBreak oracle (a + 1) fuel with
      | none => rw [hk] at h; simp at h
      | some k0 =>
        rw [hk] at h
        simp only [Option.map_some', Option.some.injEq] at h
        have h2 := ih (a + 1) k0 hk
        have e : a + k = a + 1 + k0 := by omega
        rw [e]
        exact h2
    · cases h
      rename_i hne
      simpa using hne

/-- The loop makes at least one and at most `retries + 1` calls. -/
theorem attemptLoop_calls_bounds (jl : JLoads) (oracle : Nat → AttemptOutcome) (retries : Nat) :
    1 ≤ (attemptLoop jl oracle retries).calls
    ∧ (attemptLoop jl oracle retries).calls ≤ retries + 1 := by
  rw [attemptLoop_eq_spec]
  unfold attemptLoopSpec attemptSpecAux
  cases hk : firstBreak oracle 0 (retries + 1) with
  | some k =>
    have hlt := firstBreak_lt oracle (retries + 1) 0 k hk
    have hnn := firstBreak_not_net oracle (retries + 1) 0 k hk
    rw [Nat.zero_add] at hnn
    simp only [Nat.zero_add]
    cases ho : oracle k with
    | response status text =>
      cases hp : parse_jsonlE jl text <;> simp [ho, hp] <;> omega
    | netError d =>
      rw [ho] at hnn
      simp [AttemptOutcome.isNetError] at hnn
    | otherExc d =>
      simp [ho]
      omega
  | none =>
    simp

/-- One input row of the Prober together with the outcome of each network
call that row would trigger (the oracle abstracts the remote service and
the network). -/
structure PRow where
  name : PStr
  country : PStr
  domain : PStr
  email_example : PStr
  oracle : Nat → AttemptOutcome

/-- The Prober's main-loop state: the processed-domain set, the ledger rows
appended so far, the three counters, and the total number of network calls
issued. -/
structure ProbeState where
  already : List PStr
  ledger : List LedgerRow
  kept : Nat
  skipped : Nat
  failed : Nat
  calls : Nat
deriving DecidableEq

/-- Inserting a fresh element is consing. -/
theorem insertSet_of_not_mem (x : PStr) (s : List PStr) (h : ¬ x ∈ s) :
    insertSet x s = x :: s := by
  simp [insertSet, h]

/-- One iteration of the Prober's row loop (ping_waitlist.py lines
232-283), excluding the randomized inter-request sleep: normalize the
fields, skip on blank domain/email or on an already-processed domain,
otherwise run the retry loop, append exactly one ledger row and add the
domain to the processed set. -/
def probeStep (jl : JLoads) (retries : Nat) (st : ProbeState) (r : PRow) : ProbeState :=
  let name := pstrip r.name
  let country := pstrip r.country
  let domain := plower (pstrip r.domain)
  let email := pstrip r.email_example
  if domain = [] ∨ email = [] then { st with skipped := st.skipped + 1 }
  else if domain ∈ st.already then { st with skipped := st.skipped + 1 }
  else
    let res := attemptLoop jl r.oracle retries
    { already := insertSet domain st.already
      ledger := st.ledger ++
        [⟨name, country, domain, email, res.position, res.last_status, res.last_text⟩]
      kept := if res.ok then st.kept + 1 else st.kept
      skipped := st.skipped
      failed := if res.ok then st.failed else st.failed + 1
      calls := st.calls + res.calls }

/-- The Prober's main loop over its input rows, starting from a processed
set loaded from the ledger. -/
def probeRun (jl : JLoads) (retries : Nat) (ledger : Option (List LedgerRow))
    (rows : List PRow) : ProbeState :=
  rows.foldl (probeStep jl retries) ⟨load_already_processed ledger, [], 0, 0, 0, 0⟩

/-- Claim C2: `load_already_processed` of a missing file is empty; on a
ledger it returns exactly the distinct non-blank trimmed lowercased domain
values; and a row whose normalized domain is in the processed set is
skipped with no network call and no ledger append — only the skip counter
changes. -/
theorem prober_ledger_roundtrip_resume :
    load_already_processed none = []
    ∧ (∀ (rows : List LedgerRow) (x : PStr),
        x ∈ load_already_processed (some rows)
          ↔ ∃ r ∈ rows, pstrip r.domain ≠ [] ∧ x = plower (pstrip r.domain))
    ∧ (∀ rows : List LedgerRow, (load_already_processed (some rows)).Nodup)
    ∧ (∀ (jl : JLoads) (retries : Nat) (st : ProbeState) (r : PRow),
        plower (pstrip r.domain) ∈ st.already →
        probeStep jl retries st r = { st with skipped := st.skipped + 1 }) := by
  refine ⟨rfl, fun rows x => ?_, fun rows => ?_, fun jl retries st r hmem => ?_⟩
  · show (x ∈ rows.foldl _ []) ↔ _
    rw [mem_load_foldl rows [] x]
    simp
  · exact nodup_load_foldl rows [] List.nodup_nil
  · simp only [probeStep]
    by_cases h1 : plower (pstrip r.domain) = [] ∨ pstrip r.email_example = []
    · rw [if_pos h1]
    · rw [if_neg h1, if_pos hmem]

/-- Witness for claim C2: a ledger containing `" X.EDU "` loads as the set
containing `"x.edu"`, and a second-run row with that domain is skipped
untouched. -/
theorem prober_ledger_roundtrip_resume_witness :
    ("x.edu".data ∈ load_already_processed (some
        [⟨"A".data, "US".data, " X.EDU ".data, "abc@x.edu".data, none, 200, "ok".data⟩]))
    ∧ probeStep (fun s => .error s) 2
        ⟨["x.edu".data], [], 0, 0, 0, 0⟩
        ⟨"A".data, "US".data, " X.EDU ".data, "abc@x.edu".data, fun _ => .otherExc []⟩
      = ⟨["x.edu".data], [], 0, 1, 0, 0⟩ := by
  constructor
  · exact (prober_ledger_roundtrip_resume.2.1 _ "x.edu".data).mpr
      ⟨⟨"A".data, "US".data, " X.EDU ".data, "abc@x.edu".data, none, 200, "ok".data⟩,
        by decide, by decide, by decide⟩
  · exact prober_ledger_roundtrip_resume.2.2.2 (fun s => .error s) 2
      ⟨["x.edu".data], [], 0, 0, 0, 0⟩
      ⟨"A".data, "US".data, " X.EDU ".data, "abc@x.edu".data, fun _ => .otherExc []⟩
      (by decide)

/-- Claim C3 (amended): the retry loop equals its spec-shaped description —
at most `retries + 1` calls; every attempt before the break is a network
error sleeping `0.6 + attempt` seconds; a response whose body parses ends
the loop as success with that status and body; a response whose body fails
JSONL parsing, or any other exception, ends the loop immediately as a
failure with status 0 and a synthesized body; exhaustion records the last
network error.  After the loop, exactly one ledger row is appended with the
final status/body/position and the domain joins the processed set even on
failure. -/
theorem prober_retry_loop_semantics :
    (∀ (jl : JLoads) (oracle : Nat → AttemptOutcome) (retries : Nat),
      attemptLoop jl oracle retries = attemptLoopSpec jl oracle retries
      ∧ 1 ≤ (attemptLoop jl oracle retries).calls
      ∧ (attemptLoop jl oracle retries).calls ≤ retries + 1)
    ∧ (∀ (jl : JLoads) (retries : Nat) (st : ProbeState) (r : PRow),
        plower (pstrip r.domain) ≠ [] →
        pstrip r.email_example ≠ [] →
        plower (pstrip r.domain) ∉ st.already →
        probeStep jl retries st r
          = { st with
              already := plower (pstrip r.domain) :: st.already
              ledger := st.ledger ++
                [⟨pstrip r.name, pstrip r.country, plower (pstrip r.domain),
                  pstrip r.email_example,
                  (attemptLoop jl r.oracle retries).position,
                  (attemptLoop jl r.oracle retries).last_status,
                  (attemptLoop jl r.oracle retries).last_text⟩]
              kept := if (attemptLoop jl r.oracle retries).ok then st.kept + 1 else st.kept
              failed := if (attemptLoop jl r.oracle retries).ok then st.failed
                else st.failed + 1
              calls := st.calls + (attemptLoop jl r.oracle retries).calls }) := by
  refine ⟨fun jl oracle retries => ⟨attemptLoop_eq_spec jl oracle retries,
      (attemptLoop_calls_bounds jl oracle retries).1,
      (attemptLoop_calls_bounds jl oracle retries).2⟩,
    fun jl retries st r h1 h2 h3 => ?_⟩
  simp only [probeStep]
  rw [if_neg (by push_neg; exact ⟨h1, h2⟩), if_neg h3, insertSet_of_not_mem _ _ h3]

/-- Witness for claim C3: a run whose only attempt raises a non-network
exception appends exactly one failure row and marks the domain processed. -/
theorem prober_retry_loop_semantics_witness :
    probeStep (fun s => .error s) 1
      ⟨[], [], 0, 0, 0, 0⟩
      ⟨"A".data, "US".data, "x.edu".data, "abc@x.edu".data, fun _ => .otherExc "boom".data⟩
      = ⟨["x.edu".data],
         [⟨"A".data, "US".data, "x.edu".data, "abc@x.edu".data, none, 0, synthExc "boom".data⟩],
         0, 0, 1, 1⟩ := by
  have h := prober_retry_loop_semantics.2 (fun s => .error s) 1
    ⟨[], [], 0, 0, 0, 0⟩
    ⟨"A".data, "US".data, "x.edu".data, "abc@x.edu".data, fun _ => .otherExc "boom".data⟩
    (by decide) (by decide) (by decide)
  rw [h]
  rfl

/-- A parser rejecting every input it is fed, as `json.loads` does on any
of the non-JSON bodies of this counterexample (the HTML page `"<html>"`). -/
def jlRejectAll : JLoads := fun s => .error s

/-- Counterexample to claim C3 as stated: an HTTP response (here with
status 500) whose body fails JSONL parsing does end the attempt loop, but
as a failure, not a success: `ok` is false and the recorded status is 0,
not the response's 500. -/
theorem prober_http_response_counterexample :
    (attemptLoop jlRejectAll (fun _ => .response 500 "<html>".data) 2).ok = false
    ∧ (attemptLoop jlRejectAll (fun _ => .response 500 "<html>".data) 2).last_status = 0
    ∧ (attemptLoop jlRejectAll (fun _ => .response 500 "<html>".data) 2).last_status ≠ 500
    ∧ (attemptLoop jlRejectAll (fun _ => .response 500 "<html>".data) 2).calls = 1 := by
  refine ⟨by decide, by decide, by decide, by decide⟩
